import Mathlib

/-!
Verification of the episode-miner event tagger (`episode_miner/event_tagger.py`).

Texts and patterns are modelled as lists of naturals (byte values of the
encoded string); spans are half-open `(start, end)` pairs of offsets.  The
matching, conflict-resolution and offset-mapping pipeline is translated
function by function; python loops become structural recursions (index loops
carry the current index together with the remaining list suffix, `while`
loops over a string carry explicit fuel that provably suffices).
-/

namespace EpisodeMiner

/-- Span of a match: the `START`/`END` fields of an event dict, a half-open
offset interval. -/
abbrev Span := Nat × Nat

/-- Lexicographic order on spans: the combined effect of the two stable sorts
`events.sort(key=END)` then `events.sort(key=START)` at the top of
`KeywordTagger._resolve_conflicts`. -/
def lexLe (a b : Span) : Prop := a.1 < b.1 ∨ (a.1 = b.1 ∧ a.2 ≤ b.2)

instance : DecidableRel lexLe := fun a b =>
  inferInstanceAs (Decidable (a.1 < b.1 ∨ (a.1 = b.1 ∧ a.2 ≤ b.2)))

instance : IsTotal Span lexLe where
  total a b := by
    rcases Nat.lt_trichotomy a.1 b.1 with h | h | h
    · exact Or.inl (Or.inl h)
    · rcases Nat.le_total a.2 b.2 with h2 | h2
      · exact Or.inl (Or.inr ⟨h, h2⟩)
      · exact Or.inr (Or.inr ⟨h.symm, h2⟩)
    · exact Or.inr (Or.inl h)

instance : IsTrans Span lexLe where
  trans a b c hab hbc := by
    rcases hab with h1 | ⟨h1, h1'⟩ <;> rcases hbc with h2 | ⟨h2, h2'⟩
    · exact Or.inl (h1.trans h2)
    · exact Or.inl (h2 ▸ h1)
    · exact Or.inl (h1 ▸ h2)
    · exact Or.inr ⟨h1.trans h2, h1'.trans h2'⟩

/-- Sorting step of `_resolve_conflicts`: the two stable python sorts amount to
one stable sort by `(START, END)`. -/
def sortSpans (events : List Span) : List Span := List.insertionSort lexLe events

/-- Occurrence test `text[i : i + len(pat)] == pat`. -/
def occursAt (text pat : List Nat) (i : Nat) : Bool :=
  (text.drop i).take pat.length == pat

/-- Fuel-driven upward scan behind python `text.find(pat, i)`: try positions
`i, i+1, ...` while they stay `≤ len(text)`. -/
def findFromAux (text pat : List Nat) : Nat → Nat → Option Nat
  | _, 0 => none
  | i, fuel + 1 =>
    if i ≤ text.length then
      if occursAt text pat i then some i else findFromAux text pat (i + 1) fuel
    else none

/-- Python `text.find(pat, i)`; `none` stands for `-1`.  The fuel
`len(text) + 1 - i` covers every admissible candidate position. -/
def str_find (text pat : List Nat) (i : Nat) : Option Nat :=
  findFromAux text pat i (text.length + 1 - i)

/-- Loop `while start > -1` of `_find_keywords_naive` for one vocabulary entry:
emit `(start, start + len(entry))`, continue searching from `start + 1`.  Each
found position is strictly larger than the previous one and at most
`len(text)`, so fuel `len(text) + 2` (supplied by the caller) suffices. -/
def find_keywords_loop (text pat : List Nat) : Nat → Nat → List Span
  | _, 0 => []
  | i, fuel + 1 =>
    match str_find text pat i with
    | some s => (s, s + pat.length) :: find_keywords_loop text pat (s + 1) fuel
    | none => []

/-- Function `KeywordTagger._find_keywords_naive` (identically the span part of
`EventTagger._find_events_naive`): all occurrences of every entry. -/
def find_keywords_naive (vocab : List (List Nat)) (text : List Nat) : List Span :=
  vocab.flatMap (fun entry => find_keywords_loop text entry 0 (text.length + 2))

/-- Modelled from the spec: `_find_keywords_ahocorasick` delegates the scan to
the external `pyahocorasick` automaton, whose code is not in this repository;
the spec describes it as a single left-to-right pass reporting every pattern
ending at each position.  For each end position `e` and each vocabulary entry
that ends there, the span `(e - len(entry), e)` is reported. -/
def find_keywords_ahocorasick (vocab : List (List Nat)) (text : List Nat) : List Span :=
  (List.range (text.length + 1)).flatMap (fun e =>
    vocab.filterMap (fun entry =>
      if entry.length ≤ e ∧ occursAt text entry (e - entry.length) then
        some (e - entry.length, e)
      else none))

/-- Conflict resolving strategies accepted by the taggers. -/
inductive Strategy
  | ALL
  | MAX
  | MIN
deriving DecidableEq

/-- Loop `while bookmark < len(events) - 1 and events[0][START] ==
events[bookmark+1][START]` of the MAX branch: skip past the initial run of
spans sharing the first start.  Returns `events[bookmark]` together with the
remaining suffix `events[bookmark+1:]`. -/
def maxInit (first : Nat) : Span → List Span → Span × List Span
  | cur, [] => (cur, [])
  | cur, x :: rest => if x.1 = first then maxInit first x rest else (cur, x :: rest)

/-- Loop `for i in range(bookmark + 1, len(events) - 1)` of the MAX branch plus
the final `if events[-1][END] > new_events[-1][END]` append.  The first list is
the remaining suffix of the sorted events (one-element list means the loop is
done and only `events[-1]` is left to the final test); `acc` is `new_events`
reversed, so `acc.headD` is `new_events[-1]`. -/
def maxLoop : List Span → List Span → List Span
  | [], acc => acc
  | [x], acc => if (acc.headD (0, 0)).2 < x.2 then x :: acc else acc
  | x :: y :: rest, acc =>
    maxLoop (y :: rest) (if (acc.headD (0, 0)).2 < x.2 ∧ x.1 ≠ y.1 then x :: acc else acc)

/-- MAX branch of `KeywordTagger._resolve_conflicts` (lists of fewer than two
spans are returned as sorted). -/
def resolveMax (events : List Span) : List Span :=
  match sortSpans events with
  | [] => []
  | [e] => [e]
  | e0 :: e1 :: rest =>
    let p := maxInit e0.1 e0 (e1 :: rest)
    (maxLoop p.2 [p.1]).reverse

/-- Loop `while len(events) > 1 and events[-1][START] == events[-2][START]:
del events[-1]` of the MIN branch, acting on the reversed sorted list (whose
head is the last element). -/
def dropTailAux : List Span → List Span
  | a :: b :: rest => if a.1 = b.1 then dropTailAux (b :: rest) else a :: b :: rest
  | l => l

/-- Loop `for i in range(len(events) - 2, 0, -1)` of the MIN branch.  Python
scans right to left deleting in place, so the scan processes the reversed list;
`acc` holds the survivors decided so far in original order (its head is the
nearest surviving right neighbour `events[i+1]`), and `z'` is `events[i-1]`,
the untouched original left neighbour.  The final element (original index `0`)
is outside the loop range and is prepended unconditionally; the final
`if events[0][END] >= events[1][END]: del events[0]` is applied afterwards. -/
def minLoop : List Span → List Span → List Span
  | acc, [] => acc
  | acc, [z] => z :: acc
  | acc, z :: z' :: rest =>
    if z.1 = z'.1 ∨ (acc.headD (0, 0)).2 ≤ z.2 then minLoop acc (z' :: rest)
    else minLoop (z :: acc) (z' :: rest)

/-- MIN branch of `KeywordTagger._resolve_conflicts`. -/
def resolveMin (events : List Span) : List Span :=
  match sortSpans events with
  | [] => []
  | [e] => [e]
  | e0 :: e1 :: rest =>
    let es2 :=
      match dropTailAux (e0 :: e1 :: rest).reverse with
      | [] => []
      | z :: zs => minLoop [z] zs
    match es2 with
    | f0 :: f1 :: t => if f1.2 ≤ f0.2 then f1 :: t else f0 :: f1 :: t
    | l => l

/-- Function `KeywordTagger._resolve_conflicts`: sort by `(START, END)` and
apply the selected strategy (ALL returns the sorted list unchanged). -/
def resolve_conflicts (strategy : Strategy) (events : List Span) : List Span :=
  match strategy with
  | .ALL => sortSpans events
  | .MAX => resolveMax events
  | .MIN => resolveMin events

/-- Event record produced by `EventTagger._event_intervals`: the span plus the
interval fields.  `wstart_raw` and `wend_raw` are always written; `wstart` and
`cstart` exist only when the batch had no overlap, so they are `Option`
(`none` models an absent dict key).  `stop` is the `end` field (a Lean
keyword). -/
structure Event where
  start : Nat
  stop : Nat
  wstart_raw : Nat
  wend_raw : Nat
  wstart : Option Int
  cstart : Option Int
deriving DecidableEq, Repr

/-- Loop `for i in range(bookmark, len(word_spans) - 1)` of `_event_intervals`
for one event with span `(s, e)`: `i` is the current index and the list
argument is `word_spans.drop i`; `wsr` is the current `wstart_raw`, `bm` the
current bookmark.  Returns `(wstart_raw, wend_raw, bookmark)`; `wend_raw` is
`0` unless the `break` fires, its initial value at every call site. -/
def intervalLoop (s e : Nat) : Nat → List (Nat × Nat) → Nat → Nat → Nat × Nat × Nat
  | i, x :: y :: rest, wsr, bm =>
    let p : Nat × Nat := if x.1 ≤ s ∧ s < y.1 then (i, i) else (wsr, bm)
    if x.1 < e ∧ e ≤ y.1 then (p.1, i + 1, p.2)
    else intervalLoop s e (i + 1) (y :: rest) p.1 p.2
  | _, _, wsr, bm => (wsr, 0, bm)

/-- Main loop of `_event_intervals`: thread bookmark, previous end and the
overlap flag through the events, initialising `wstart_raw` to
`len(word_spans)` and `wend_raw` to `0` for each event. -/
def eventLoop (ws : List (Nat × Nat)) : List Span → Nat → Nat → Bool → List Event × Bool
  | [], _, _, ov => ([], ov)
  | ev :: rest, bm, last_end, ov =>
    let ov' := if ev.1 < last_end then true else ov
    let r := intervalLoop ev.1 ev.2 bm (ws.drop bm) ws.length bm
    let t := eventLoop ws rest r.2.2 ev.2 ov'
    (⟨ev.1, ev.2, r.1, r.2.1, none, none⟩ :: t.1, t.2)

/-- Compacting pass of `_event_intervals`, run only when no overlap was
detected: the running accumulators `w_shift` and `c_shift`. -/
def compact : List Event → Int → Int → List Event
  | [], _, _ => []
  | ev :: rest, wsh, csh =>
    { ev with wstart := some ((ev.wstart_raw : Int) - wsh),
              cstart := some ((ev.start : Int) - csh) } ::
      compact rest (wsh + ((ev.wend_raw : Int) - (ev.wstart_raw : Int) - 1))
        (csh + ((ev.stop : Int) - (ev.start : Int) - 1))

/-- Function `EventTagger._event_intervals` on resolved spans. -/
def event_intervals (events : List Span) (word_spans : List (Nat × Nat)) : List Event :=
  let r := eventLoop word_spans events 0 0 false
  if r.2 then r.1 else compact r.1 0 0

/-- Method `EventTagger.tag` at span level (the carried vocabulary metadata
fields play no role in any claim): find the events with the naive scanner,
resolve conflicts, compute the intervals. -/
def event_tag (terms : List (List Nat)) (strategy : Strategy) (text : List Nat)
    (word_spans : List (Nat × Nat)) : List Event :=
  event_intervals (resolve_conflicts strategy (find_keywords_naive terms text)) word_spans

/-- Constant `estnltk.names.START`. -/
def START : String := "start"

/-- Constant `estnltk.names.END`. -/
def END : String := "end"

/-- Constant `TERM` of the module. -/
def TERM : String := "term"

/-- Constant `WSTART` of the module. -/
def WSTART : String := "wstart"

/-- Constant `WEND` of the module. -/
def WEND : String := "wend"

/-- Constant `CSTART` of the module. -/
def CSTART : String := "cstart"

/-- Function `EventTagger._read_event_vocabulary` for an in-memory (list)
vocabulary.  Only the key sets of the records are inspected, so a record is
modelled by its list of field names.  The python code checks the reserved and
required keys on `event_vocabulary[0]` only. -/
def read_event_vocabulary (event_vocabulary : List (List String)) :
    Except String (List (List String)) :=
  match event_vocabulary with
  | [] => .ok []
  | r0 :: _ =>
    if START ∈ r0 ∨ END ∈ r0 ∨ WSTART ∈ r0 ∨ WEND ∈ r0 ∨ CSTART ∈ r0 then
      .error "Illegal key in event vocabulary."
    else if TERM ∉ r0 then
      .error "Missing key term in event vocabulary."
    else .ok event_vocabulary

/-- Match record built by `RegexTagger._match`: span, source regex and the
metadata fields merged from `self.map[r]` (reserved keys skipped). -/
structure RegexMatch where
  start : Nat
  stop : Nat
  regex : List Nat
  fields : List (String × List Nat)
deriving DecidableEq

/-- Inner loop body of `RegexTagger._match` for one regex `r`: every match
object evaluates `self.map[r].items()`.  The attribute `map` is set by
`__init__` only in the DataFrame branch (`mapping = True`); for a list-like
vocabulary the access raises `AttributeError`, modelled as `.error`. -/
def regexMatchesOf (map? : Option (List Nat → List (String × List Nat))) (r : List Nat) :
    List Span → Except String (List RegexMatch)
  | [] => .ok []
  | m :: ms =>
    match map? with
    | none => .error "AttributeError: RegexTagger object has no attribute map"
    | some mp =>
      match regexMatchesOf map? r ms with
      | .error s => .error s
      | .ok rest =>
        .ok ({ start := m.1, stop := m.2, regex := r,
               fields := (mp r).filter (fun kv =>
                 kv.1 ≠ "start" ∧ kv.1 ≠ "end" ∧ kv.1 ≠ "regex" ∧ kv.1 ≠ "groups") } :: rest)

/-- Outer loop of `RegexTagger._match` over the regex sequence. -/
def regexMatchAux (finditer : List Nat → List Nat → List Span)
    (map? : Option (List Nat → List (String × List Nat))) (text : List Nat) :
    List (List Nat) → Except String (List RegexMatch)
  | [] => .ok []
  | r :: rs =>
    match regexMatchesOf map? r (finditer r text) with
    | .error s => .error s
    | .ok here =>
      match regexMatchAux finditer map? text rs with
      | .error s => .error s
      | .ok rest => .ok (here ++ rest)

/-- Method `RegexTagger._match`, abstracted over the external regex engine
`finditer` (which yields the overlapped match spans of one pattern). -/
def regex_match (finditer : List Nat → List Nat → List Span)
    (regex_sequence : List (List Nat))
    (map? : Option (List Nat → List (String × List Nat)))
    (text : List Nat) : Except String (List RegexMatch) :=
  regexMatchAux finditer map? text regex_sequence

/-- Comparison of word spans by their start offset (strict). -/
def fstLt (a b : Nat × Nat) : Prop := a.1 < b.1

instance : DecidableRel fstLt := fun a b => inferInstanceAs (Decidable (a.1 < b.1))

instance : IsTrans (Nat × Nat) fstLt := ⟨fun _ _ _ => Nat.lt_trans⟩

/-- Word table with strictly increasing word-start offsets (the monotone word
table of the spec, section 3). -/
def WsMono (ws : List (Nat × Nat)) : Prop :=
  List.Chain' fstLt ws

/-- Executable check for `WsMono` (the Mathlib `Chain'` decidability instance
does not reduce in the kernel). -/
def wsMonoB : List (Nat × Nat) → Bool
  | a :: b :: rest => decide (a.1 < b.1) && wsMonoB (b :: rest)
  | _ => true

theorem wsMonoB_iff : ∀ l : List (Nat × Nat), wsMonoB l = true ↔ List.Chain' fstLt l := by
  intro l
  match l with
  | [] => simp [wsMonoB]
  | [a] => simp [wsMonoB]
  | a :: b :: rest =>
    rw [wsMonoB, List.chain'_cons, Bool.and_eq_true, decide_eq_true_eq]
    constructor
    · rintro ⟨h1, h2⟩
      exact ⟨h1, (wsMonoB_iff (b :: rest)).1 h2⟩
    · rintro ⟨h1, h2⟩
      exact ⟨h1, (wsMonoB_iff (b :: rest)).2 h2⟩

instance (ws : List (Nat × Nat)) : Decidable (WsMono ws) :=
  decidable_of_iff (wsMonoB ws = true) (wsMonoB_iff ws)

/-- Start offset of word `k` of the word table (0 when out of range). -/
def wsStart (ws : List (Nat × Nat)) (k : Nat) : Nat := (ws.getD k (0, 0)).1

/-- Offset `s` lies in word `i`'s span, in the convention of
`_event_intervals`: the span of word `i` is
`[word_spans[i][0], word_spans[i+1][0])`. -/
def startIn (ws : List (Nat × Nat)) (s i : Nat) : Prop :=
  i + 1 < ws.length ∧ wsStart ws i ≤ s ∧ s < wsStart ws (i + 1)

/-- Word `j` contains the last offset before `e`, that is `e - 1`, in the same
convention (for `e ≥ 1` this is `word_spans[j][0] < e ≤ word_spans[j+1][0]`). -/
def endIn (ws : List (Nat × Nat)) (e j : Nat) : Prop :=
  j + 1 < ws.length ∧ wsStart ws j < e ∧ e ≤ wsStart ws (j + 1)

instance (ws : List (Nat × Nat)) (s i : Nat) : Decidable (startIn ws s i) :=
  inferInstanceAs (Decidable (_ ∧ _))

instance (ws : List (Nat × Nat)) (e j : Nat) : Decidable (endIn ws e j) :=
  inferInstanceAs (Decidable (_ ∧ _))

/-- Specification value from the spec, section 4.4: `wstart_raw` is the index
of the word whose span contains `start`, defaulting to the total word count
when no containing word exists. -/
def wstartSpec (ws : List (Nat × Nat)) (s : Nat) : Nat :=
  match (List.range ws.length).find? (fun i => decide (startIn ws s i)) with
  | some i => i
  | none => ws.length

/-- Specification value from the spec, section 4.4: `wend_raw` is one plus the
index of the word containing the last offset before `end`, left at its initial
value `0` when unresolved. -/
def wendSpec (ws : List (Nat × Nat)) (e : Nat) : Nat :=
  match (List.range ws.length).find? (fun j => decide (endIn ws e j)) with
  | some j => j + 1
  | none => 0

/-! Lemmas about the naive scanner (python `str.find` iteration). -/

theorem occursAt_iff {text pat : List Nat} {i : Nat} :
    occursAt text pat i = true ↔ (text.drop i).take pat.length = pat := by
  simp [occursAt]

theorem occursAt_fits {text pat : List Nat} {s : Nat} (hs : s ≤ text.length)
    (h : occursAt text pat s = true) : s + pat.length ≤ text.length := by
  rw [occursAt_iff] at h
  have hl := congrArg List.length h
  simp only [List.length_take, List.length_drop] at hl
  omega

theorem findFromAux_some {text pat : List Nat} :
    ∀ {fuel i m : Nat}, findFromAux text pat i fuel = some m →
      i ≤ m ∧ m ≤ text.length ∧ occursAt text pat m = true := by
  intro fuel
  induction fuel with
  | zero => intro i m h; simp [findFromAux] at h
  | succ fuel ih =>
    intro i m h
    rw [findFromAux] at h
    by_cases hi : i ≤ text.length
    · rw [if_pos hi] at h
      by_cases ho : occursAt text pat i = true
      · rw [if_pos ho] at h
        cases h
        exact ⟨Nat.le_refl _, hi, ho⟩
      · rw [if_neg ho] at h
        obtain ⟨h1, h2, h3⟩ := ih h
        exact ⟨Nat.le_trans (Nat.le_succ i) h1, h2, h3⟩
    · rw [if_neg hi] at h
      cases h

theorem findFromAux_min {text pat : List Nat} :
    ∀ {fuel i m : Nat}, findFromAux text pat i fuel = some m →
      ∀ k, i ≤ k → occursAt text pat k = true → m ≤ k := by
  intro fuel
  induction fuel with
  | zero => intro i m h; simp [findFromAux] at h
  | succ fuel ih =>
    intro i m h k hik hk
    rw [findFromAux] at h
    by_cases hi : i ≤ text.length
    · rw [if_pos hi] at h
      by_cases ho : occursAt text pat i = true
      · rw [if_pos ho] at h
        cases h
        exact hik
      · rw [if_neg ho] at h
        have hik' : i + 1 ≤ k := by
          rcases Nat.eq_or_lt_of_le hik with rfl | hlt
          · exact absurd hk ho
          · exact hlt
        exact ih h k hik' hk
    · rw [if_neg hi] at h
      cases h

theorem findFromAux_isSome {text pat : List Nat} :
    ∀ {fuel i s : Nat}, i ≤ s → s ≤ text.length → occursAt text pat s = true →
      text.length + 1 ≤ i + fuel → (findFromAux text pat i fuel).isSome := by
  intro fuel
  induction fuel with
  | zero => intro i s h1 h2 h3 h4; omega
  | succ fuel ih =>
    intro i s h1 h2 h3 h4
    rw [findFromAux]
    rw [if_pos (Nat.le_trans h1 h2)]
    by_cases ho : occursAt text pat i = true
    · rw [if_pos ho]; rfl
    · rw [if_neg ho]
      have h1' : i + 1 ≤ s := by
        rcases Nat.eq_or_lt_of_le h1 with rfl | hlt
        · exact absurd h3 ho
        · exact hlt
      exact ih h1' h2 h3 (by omega)

theorem str_find_some {text pat : List Nat} {i m : Nat}
    (h : str_find text pat i = some m) :
    i ≤ m ∧ m ≤ text.length ∧ occursAt text pat m = true :=
  findFromAux_some h

theorem str_find_min {text pat : List Nat} {i m : Nat}
    (h : str_find text pat i = some m) :
    ∀ k, i ≤ k → occursAt text pat k = true → m ≤ k :=
  findFromAux_min h

theorem str_find_isSome {text pat : List Nat} {i s : Nat} (h1 : i ≤ s)
    (h2 : s ≤ text.length) (h3 : occursAt text pat s = true) :
    (str_find text pat i).isSome :=
  findFromAux_isSome h1 h2 h3 (by omega)

theorem find_keywords_loop_sound {text pat : List Nat} :
    ∀ {fuel i : Nat} {p : Span}, p ∈ find_keywords_loop text pat i fuel →
      i ≤ p.1 ∧ p.1 ≤ text.length ∧ occursAt text pat p.1 = true ∧
        p.2 = p.1 + pat.length := by
  intro fuel
  induction fuel with
  | zero => intro i p h; simp [find_keywords_loop] at h
  | succ fuel ih =>
    intro i p h
    rw [find_keywords_loop] at h
    cases hf : str_find text pat i with
    | none => rw [hf] at h; simp at h
    | some s =>
      rw [hf] at h
      obtain ⟨hs1, hs2, hs3⟩ := str_find_some hf
      rcases List.mem_cons.1 h with rfl | h'
      · exact ⟨hs1, hs2, hs3, rfl⟩
      · obtain ⟨h1, h2, h3, h4⟩ := ih h'
        exact ⟨by omega, h2, h3, h4⟩

theorem find_keywords_loop_complete {text pat : List Nat} :
    ∀ (fuel i s : Nat), i ≤ s → s ≤ text.length → occursAt text pat s = true →
      text.length + 2 ≤ i + fuel →
      (s, s + pat.length) ∈ find_keywords_loop text pat i fuel := by
  intro fuel
  induction fuel with
  | zero => intro i s h1 h2 h3 h4; omega
  | succ fuel ih =>
    intro i s h1 h2 h3 h4
    rw [find_keywords_loop]
    cases hf : str_find text pat i with
    | none =>
      exact absurd (str_find_isSome h1 h2 h3) (by rw [hf]; simp)
    | some m =>
      obtain ⟨hm1, _, _⟩ := str_find_some hf
      have hms : m ≤ s := str_find_min hf s h1 h3
      rcases Nat.eq_or_lt_of_le hms with rfl | hlt
      · exact List.mem_cons_self _ _
      · exact List.mem_cons_of_mem _ (ih (m + 1) s hlt h2 h3 (by omega))

theorem mem_find_keywords_naive {vocab : List (List Nat)} {text : List Nat} {p : Span} :
    p ∈ find_keywords_naive vocab text ↔
      ∃ entry ∈ vocab, p.1 ≤ text.length ∧ occursAt text entry p.1 = true ∧
        p.2 = p.1 + entry.length := by
  rw [find_keywords_naive, List.mem_flatMap]
  constructor
  · rintro ⟨entry, hv, hp⟩
    obtain ⟨_, h2, h3, h4⟩ := find_keywords_loop_sound hp
    exact ⟨entry, hv, h2, h3, h4⟩
  · rintro ⟨entry, hv, h2, h3, h4⟩
    refine ⟨entry, hv, ?_⟩
    have := find_keywords_loop_complete (text.length + 2) 0 p.1
      (Nat.zero_le p.1) h2 h3 (by omega)
    have hp : p = (p.1, p.1 + entry.length) := by
      cases p; simp_all
    rw [hp]
    exact this

theorem mem_find_keywords_ahocorasick {vocab : List (List Nat)} {text : List Nat}
    {p : Span} :
    p ∈ find_keywords_ahocorasick vocab text ↔
      ∃ entry ∈ vocab, p.1 ≤ text.length ∧ occursAt text entry p.1 = true ∧
        p.2 = p.1 + entry.length := by
  rw [find_keywords_ahocorasick, List.mem_flatMap]
  constructor
  · rintro ⟨e, he, hp⟩
    rw [List.mem_filterMap] at hp
    obtain ⟨entry, hv, hif⟩ := hp
    by_cases hc : entry.length ≤ e ∧ occursAt text entry (e - entry.length) = true
    · rw [if_pos hc] at hif
      cases hif
      have hee : e ≤ text.length := by
        have := List.mem_range.1 he
        omega
      exact ⟨entry, hv, by omega, hc.2, by omega⟩
    · rw [if_neg hc] at hif
      cases hif
  · rintro ⟨entry, hv, h2, h3, h4⟩
    have hfit : p.1 + entry.length ≤ text.length := occursAt_fits h2 h3
    refine ⟨p.1 + entry.length, List.mem_range.2 (by omega), ?_⟩
    rw [List.mem_filterMap]
    refine ⟨entry, hv, ?_⟩
    rw [if_pos ⟨by omega, by simpa [Nat.add_sub_cancel] using h3⟩]
    have hp : p = (p.1, p.1 + entry.length) := by
      cases p; simp_all
    simp [Nat.add_sub_cancel, ← hp]

/-- C1: for every vocabulary of literal patterns and every text, the naive
scanner and the Aho-Corasick automaton scanner (spec-modelled external
automaton) produce the identical set of raw `(start, end)` spans before
conflict resolution. -/
theorem claim_C1_naive_ahocorasick_same_spans (vocab : List (List Nat)) (text : List Nat)
    (p : Span) :
    p ∈ find_keywords_naive vocab text ↔ p ∈ find_keywords_ahocorasick vocab text := by
  rw [mem_find_keywords_naive, mem_find_keywords_ahocorasick]

/-! Concrete scenario data: the spec section 8 example text
"Arv kakskümmend viis on suurem kui seitse." in UTF-8 bytes (the spec's
character offsets `[4,21)` and `[36,42)` are byte offsets), the two
vocabulary terms, and the whitespace-tokenization word table. -/

/-- Byte list of the example text of the spec, section 8. -/
def sampleText : List Nat :=
  [65, 114, 118, 32, 107, 97, 107, 115, 107, 195, 188, 109, 109, 101, 110, 100, 32, 118,
   105, 105, 115, 32, 111, 110, 32, 115, 117, 117, 114, 101, 109, 32, 107, 117, 105, 32,
   115, 101, 105, 116, 115, 101, 46]

/-- Byte list of the vocabulary term "kakskümmend viis". -/
def sampleTerm1 : List Nat :=
  [107, 97, 107, 115, 107, 195, 188, 109, 109, 101, 110, 100, 32, 118, 105, 105, 115]

/-- Byte list of the vocabulary term "seitse". -/
def sampleTerm2 : List Nat := [115, 101, 105, 116, 115, 101]

/-- Whitespace-tokenization word table of the example text, as byte spans. -/
def sampleWordSpans : List (Nat × Nat) :=
  [(0, 3), (4, 16), (17, 21), (22, 24), (25, 31), (32, 35), (36, 43)]

/-- C2 counterexample: conflict resolution with strategy MIN on the three spans
`[0,5) [0,3) [2,4)` does not return exactly one span (it returns two). -/
theorem claim_C2_counterexample :
    (resolve_conflicts Strategy.MIN [(0, 5), (0, 3), (2, 4)]).length ≠ 1 := by decide

/-- C2 amended: conflict resolution with strategy MIN on the three spans
`[0,5) [0,3) [2,4)` returns exactly the two spans `[0,3)` and `[2,4)`: the
sorted list is `[(0,3),(0,5),(2,4)]`, the interior pass deletes `(0,5)`
(start shared with its left neighbour), and the final test keeps `(0,3)`
since its end `3` is below its neighbour's end `4`. -/
theorem claim_C2_min_regression :
    resolve_conflicts Strategy.MIN [(0, 5), (0, 3), (2, 4)] = [(0, 3), (2, 4)] := by decide

/-- C10: the span list `[(0,5), (2,7)]` is kept in full by strategy MAX, and
the two kept spans overlap in characters (`2 < 5`): MAX guarantees strictly
increasing starts and ends but not pairwise character-disjointness. -/
theorem claim_C10_max_keeps_overlapping_spans :
    resolve_conflicts Strategy.MAX [(0, 5), (2, 7)] = [(0, 5), (2, 7)] ∧
      ((2, 7) : Span).1 < ((0, 5) : Span).2 := by decide

/-- C9 counterexample: a vocabulary whose second record carries the reserved
field name `start` is accepted by `_read_event_vocabulary` (only the first
record is ever validated), refuting the claim that every record with a
reserved field name is rejected. -/
theorem claim_C9_counterexample :
    ¬ (∀ voc : List (List String), (∃ r ∈ voc, START ∈ r ∨ TERM ∉ r) →
        ∀ l, read_event_vocabulary voc ≠ Except.ok l) := by
  intro h
  exact h [[TERM], [START, TERM]]
    ⟨[START, TERM], by simp, Or.inl (by simp)⟩
    [[TERM], [START, TERM]] rfl

/-- C9 amended: `EventTagger` construction rejects the vocabulary with an
immediate error exactly when its first record uses a reserved field name
(`start`, `end`, `wstart`, `wend`, `cstart`) or lacks the required `term`
field; records after the first are not validated, and no check is deferred to
tag time. -/
theorem claim_C9_first_record_validation (r0 : List String) (rest : List (List String)) :
    (∃ msg, read_event_vocabulary (r0 :: rest) = .error msg) ↔
      (START ∈ r0 ∨ END ∈ r0 ∨ WSTART ∈ r0 ∨ WEND ∈ r0 ∨ CSTART ∈ r0) ∨ TERM ∉ r0 := by
  rw [read_event_vocabulary]
  by_cases h1 : START ∈ r0 ∨ END ∈ r0 ∨ WSTART ∈ r0 ∨ WEND ∈ r0 ∨ CSTART ∈ r0
  · rw [if_pos h1]
    simp [h1]
  · rw [if_neg h1]
    by_cases h2 : TERM ∉ r0
    · rw [if_pos h2]
      simp [h1, h2]
    · rw [if_neg h2]
      simp [h1, h2]

/-- C7: evaluation of `RegexTagger._match` at the failing input — a list-like
vocabulary consisting of the single literal regex "a" and the text "a"
(byte 97) — raises `AttributeError` (the code reads `self.map`, which is set
only for DataFrame vocabularies) instead of completing.  The external regex
engine is instantiated with the literal-pattern occurrence scanner. -/
theorem claim_C7_list_vocabulary_raises :
    regex_match (fun r text => find_keywords_naive [r] text) [[97]] none [97] =
      .error "AttributeError: RegexTagger object has no attribute map" := rfl

/-- C8 counterexample: on the spec's example scenario with the
whitespace-tokenization word table, the compacted `wstart` values produced by
`EventTagger.tag` are `1` and `6`, not `1` and `5` as claimed. -/
theorem claim_C8_counterexample :
    (event_tag [sampleTerm1, sampleTerm2] Strategy.ALL sampleText sampleWordSpans).map
      (fun ev => ev.wstart) ≠ [some 1, some 5] := by decide

/-- C8 amended: for the example text with vocabulary
`kakskümmend viis, seitse` and strategy ALL, tagging yields exactly two
non-overlapping events with byte spans `[4,21)` and `[36,42)`, and with the
whitespace-tokenization word table the compacted `cstart` values are `4` and
`20` and the compacted `wstart` values are `1` and `6`. -/
theorem claim_C8_example_scenario :
    (event_tag [sampleTerm1, sampleTerm2] Strategy.ALL sampleText sampleWordSpans).map
      (fun ev => (ev.start, ev.stop, ev.wstart, ev.cstart)) =
      [(4, 21, some 1, some 4), (36, 42, some 6, some 20)] ∧
    ((4, 21) : Span).2 ≤ ((36, 42) : Span).1 := by decide

/-! Structural properties of the MAX branch: the kept spans form a strictly
increasing chain in both start and end. -/

/-- Strict componentwise order on spans, the MAX monotonic-chain relation. -/
def spanLt (a b : Span) : Prop := a.1 < b.1 ∧ a.2 < b.2

theorem sortSpans_sorted (events : List Span) : List.Sorted lexLe (sortSpans events) :=
  List.sorted_insertionSort lexLe events

theorem lexLe_start {a b : Span} (h : lexLe a b) : a.1 ≤ b.1 := by
  rcases h with h | ⟨h, _⟩
  · exact Nat.le_of_lt h
  · exact Nat.le_of_eq h

theorem maxInit_spec {first : Nat} :
    ∀ {l : List Span} {cur : Span}, List.Sorted lexLe (cur :: l) → cur.1 = first →
      List.Sorted lexLe ((maxInit first cur l).1 :: (maxInit first cur l).2) ∧
        (maxInit first cur l).1.1 = first ∧
        ∀ x ∈ (maxInit first cur l).2, first < x.1 := by
  intro l
  induction l with
  | nil =>
    intro cur h hf
    exact ⟨h, hf, by simp [maxInit]⟩
  | cons x rest ih =>
    intro cur h hf
    rw [maxInit]
    by_cases hx : x.1 = first
    · rw [if_pos hx]
      exact ih (List.sorted_cons.1 h).2 hx
    · rw [if_neg hx]
      refine ⟨h, hf, ?_⟩
      have hcx : cur.1 ≤ x.1 := lexLe_start ((List.sorted_cons.1 h).1 x (by simp))
      have hfx : first < x.1 := by
        rw [hf] at hcx
        omega
      intro y hy
      rcases List.mem_cons.1 hy with rfl | hy'
      · exact hfx
      · have hxy : x.1 ≤ y.1 :=
          lexLe_start ((List.sorted_cons.1 (List.sorted_cons.1 h).2).1 y hy')
        omega

theorem maxLoop_chain :
    ∀ {l : List Span} (h0 : Span) (t0 : List Span),
      List.Chain' (fun a b => spanLt b a) (h0 :: t0) →
      List.Sorted lexLe l →
      (∀ x ∈ l, h0.1 < x.1) →
      List.Chain' (fun a b => spanLt b a) (maxLoop l (h0 :: t0)) := by
  intro l
  induction l with
  | nil =>
    intro h0 t0 hch _ _
    simpa [maxLoop] using hch
  | cons x rest ih =>
    intro h0 t0 hch hs hst
    cases rest with
    | nil =>
      rw [maxLoop]
      by_cases hc : (List.headD (h0 :: t0) (0, 0)).2 < x.2
      · rw [if_pos hc]
        exact List.chain'_cons.2 ⟨⟨hst x (by simp), hc⟩, hch⟩
      · rw [if_neg hc]
        exact hch
    | cons y rest' =>
      rw [maxLoop]
      by_cases hc : (List.headD (h0 :: t0) (0, 0)).2 < x.2 ∧ x.1 ≠ y.1
      · rw [if_pos hc]
        have hch' : List.Chain' (fun a b => spanLt b a) (x :: h0 :: t0) :=
          List.chain'_cons.2 ⟨⟨hst x (by simp), hc.1⟩, hch⟩
        refine ih x (h0 :: t0) hch' (List.sorted_cons.1 hs).2 ?_
        have hxy : x.1 ≤ y.1 := lexLe_start ((List.sorted_cons.1 hs).1 y (by simp))
        have hxylt : x.1 < y.1 := by
          rcases Nat.eq_or_lt_of_le hxy with he | hlt
          · exact absurd he hc.2
          · exact hlt
        intro z hz
        rcases List.mem_cons.1 hz with rfl | hz'
        · exact hxylt
        · have : y.1 ≤ z.1 :=
            lexLe_start ((List.sorted_cons.1 (List.sorted_cons.1 hs).2).1 z hz')
          omega
      · rw [if_neg hc]
        refine ih h0 t0 hch (List.sorted_cons.1 hs).2 ?_
        intro z hz
        exact hst z (List.mem_cons_of_mem _ hz)

theorem resolveMax_chain (events : List Span) :
    List.Chain' spanLt (resolveMax events) := by
  rw [resolveMax]
  rcases hs : sortSpans events with _ | ⟨e0, _ | ⟨e1, rest⟩⟩
  · simp
  · simp
  · have hsorted : List.Sorted lexLe (e0 :: e1 :: rest) := hs ▸ sortSpans_sorted events
    obtain ⟨hs1, hf, hall⟩ := maxInit_spec hsorted rfl
    have hch := maxLoop_chain (maxInit e0.1 e0 (e1 :: rest)).1 []
      (List.chain'_singleton _)
      (List.sorted_cons.1 hs1).2
      (by
        intro x hx
        rw [hf]
        exact hall x hx)
    exact List.chain'_reverse.2 (by simpa [flip] using hch)

/-- C3: for every input list of spans, in the output of conflict resolution
with strategy MAX, every pair of adjacent kept spans `(s1,e1), (s2,e2)` in
order satisfies `s1 < s2` and `e1 < e2`. -/
theorem claim_C3_max_monotonic_chain (events : List Span) :
    List.Chain' (fun a b => a.1 < b.1 ∧ a.2 < b.2)
      (resolve_conflicts Strategy.MAX events) :=
  resolveMax_chain events

/-! Structural properties of the MIN branch: the kept spans also form a
strictly increasing chain in start and end, hence no kept span is contained in
another. -/

instance : IsTrans Span spanLt :=
  ⟨fun _ _ _ h1 h2 => ⟨Nat.lt_trans h1.1 h2.1, Nat.lt_trans h1.2 h2.2⟩⟩

theorem dropTailAux_sublist : ∀ l : List Span, (dropTailAux l).Sublist l := by
  intro l
  match l with
  | [] => simp [dropTailAux]
  | [a] => simp [dropTailAux]
  | a :: b :: rest =>
    rw [dropTailAux]
    by_cases h : a.1 = b.1
    · rw [if_pos h]
      exact (dropTailAux_sublist (b :: rest)).cons a
    · rw [if_neg h]

theorem dropTailAux_shape :
    ∀ l : List Span, dropTailAux l = [] ∨ (∃ z, dropTailAux l = [z]) ∨
      ∃ z0 z1 t, dropTailAux l = z0 :: z1 :: t ∧ z0.1 ≠ z1.1 := by
  intro l
  match l with
  | [] => exact Or.inl (by simp [dropTailAux])
  | [a] => exact Or.inr (Or.inl ⟨a, by simp [dropTailAux]⟩)
  | a :: b :: rest =>
    rw [dropTailAux]
    by_cases h : a.1 = b.1
    · rw [if_pos h]
      exact dropTailAux_shape (b :: rest)
    · rw [if_neg h]
      exact Or.inr (Or.inr ⟨a, b, rest, rfl, h⟩)

theorem minLoop_spec :
    ∀ {zs : List Span} (h0 : Span) (t0 : List Span),
      List.Chain' spanLt (h0 :: t0) →
      List.Pairwise (fun a b => lexLe b a) zs →
      (∀ w ∈ zs, w.1 < h0.1) →
      ∃ h t, minLoop (h0 :: t0) zs = h :: t ∧
        List.Chain' spanLt t ∧
        ∀ y ∈ t.head?, h.1 < y.1 := by
  intro zs
  induction zs with
  | nil =>
    intro h0 t0 hch _ _
    refine ⟨h0, t0, by rw [minLoop], hch.tail, ?_⟩
    intro y hy
    cases t0 with
    | nil => simp at hy
    | cons y0 t0' =>
      simp only [List.head?_cons, Option.mem_def, Option.some.injEq] at hy
      subst hy
      exact (List.chain'_cons.1 hch).1.1
  | cons z zs' ih =>
    intro h0 t0 hch hp hst
    cases zs' with
    | nil =>
      refine ⟨z, h0 :: t0, by rw [minLoop], hch, ?_⟩
      intro y hy
      simp only [List.head?_cons, Option.mem_def, Option.some.injEq] at hy
      subst hy
      exact hst z (by simp)
    | cons z' rest =>
      rw [minLoop]
      by_cases hc : z.1 = z'.1 ∨ (List.headD (h0 :: t0) (0, 0)).2 ≤ z.2
      · rw [if_pos hc]
        exact ih h0 t0 hch (List.pairwise_cons.1 hp).2
          (fun w hw => hst w (List.mem_cons_of_mem _ hw))
      · rw [if_neg hc]
        push_neg at hc
        have hzh : spanLt z h0 := ⟨hst z (by simp), hc.2⟩
        have hz'z : z'.1 < z.1 := by
          have h1 : z'.1 ≤ z.1 := lexLe_start ((List.pairwise_cons.1 hp).1 z' (by simp))
          rcases Nat.eq_or_lt_of_le h1 with he | hlt
          · exact absurd he.symm hc.1
          · exact hlt
        refine ih z (h0 :: t0) (List.chain'_cons.2 ⟨hzh, hch⟩)
          (List.pairwise_cons.1 hp).2 ?_
        intro w hw
        rcases List.mem_cons.1 hw with rfl | hw'
        · exact hz'z
        · have : w.1 ≤ z'.1 :=
            lexLe_start ((List.pairwise_cons.1 (List.pairwise_cons.1 hp).2).1 w hw')
          omega

theorem resolveMin_chain (events : List Span) :
    List.Chain' spanLt (resolveMin events) := by
  rw [resolveMin]
  rcases hs : sortSpans events with _ | ⟨e0, _ | ⟨e1, rest⟩⟩
  · simp
  · simp
  · have hsorted : List.Sorted lexLe (e0 :: e1 :: rest) := hs ▸ sortSpans_sorted events
    have hrev : List.Pairwise (fun a b => lexLe b a) (e0 :: e1 :: rest).reverse :=
      List.pairwise_reverse.2 (by simpa [flip] using hsorted)
    have hr1p : List.Pairwise (fun a b => lexLe b a)
        (dropTailAux (e0 :: e1 :: rest).reverse) :=
      hrev.sublist (dropTailAux_sublist _)
    rcases dropTailAux_shape (e0 :: e1 :: rest).reverse with hsh | ⟨z, hsh⟩ |
      ⟨z0, z1, t, hsh, hne⟩
    · dsimp only
      rw [hsh]
      simp
    · dsimp only
      rw [hsh]
      simp [minLoop]
    · dsimp only
      rw [hsh]
      rw [hsh] at hr1p
      have hz1 : z1.1 < z0.1 := by
        have h1 : z1.1 ≤ z0.1 := lexLe_start ((List.pairwise_cons.1 hr1p).1 z1 (by simp))
        rcases Nat.eq_or_lt_of_le h1 with he | hlt
        · exact absurd he.symm hne
        · exact hlt
      obtain ⟨h, t', heq, hcht, hhead⟩ :=
        minLoop_spec z0 []
          (List.chain'_singleton _)
          (List.pairwise_cons.1 hr1p).2
          (by
            intro w hw
            rcases List.mem_cons.1 hw with rfl | hw'
            · exact hz1
            · have : w.1 ≤ z1.1 :=
                lexLe_start ((List.pairwise_cons.1 (List.pairwise_cons.1 hr1p).2).1 w hw')
              omega)
      dsimp only
      rw [heq]
      cases t' with
      | nil => simp
      | cons f1 t'' =>
        dsimp only
        by_cases hc : f1.2 ≤ h.2
        · rw [if_pos hc]
          exact hcht
        · rw [if_neg hc]
          refine List.chain'_cons.2 ⟨⟨hhead f1 (by simp), by omega⟩, hcht⟩

/-- C5: for every input list of spans, in the output of conflict resolution
with strategy MIN, no kept span is a strict subset of another kept span
(strict containment of half-open spans: `b.1 ≤ a.1`, `a.2 ≤ b.2`, with at
least one inequality strict). -/
theorem claim_C5_min_no_containment (events : List Span) :
    ∀ a ∈ resolve_conflicts Strategy.MIN events,
      ∀ b ∈ resolve_conflicts Strategy.MIN events,
        ¬ (b.1 ≤ a.1 ∧ a.2 ≤ b.2 ∧ (b.1 < a.1 ∨ a.2 < b.2)) := by
  intro a ha b hb hcon
  have hpw : List.Pairwise spanLt (resolve_conflicts Strategy.MIN events) :=
    List.chain'_iff_pairwise.1 (resolveMin_chain events)
  have hpw' : List.Pairwise (fun x y => spanLt x y ∨ spanLt y x)
      (resolve_conflicts Strategy.MIN events) :=
    hpw.imp Or.inl
  by_cases hab : a = b
  · subst hab
    rcases hcon with ⟨h1, h2, h3 | h3⟩ <;> omega
  · have := hpw'.forall (fun x y h => h.symm) ha hb hab
    rcases this with ⟨h1, h2⟩ | ⟨h1, h2⟩ <;>
      rcases hcon with ⟨hc1, hc2, _⟩ <;> omega

/-! Lemmas about the word-table containment predicates under a monotone
table. -/

theorem wsMono_lt {ws : List (Nat × Nat)} (h : WsMono ws) :
    ∀ {i j : Nat}, i < j → j < ws.length → wsStart ws i < wsStart ws j := by
  intro i j hij hj
  have hp : List.Pairwise fstLt ws := List.chain'_iff_pairwise.1 h
  have hi : i < ws.length := Nat.lt_trans hij hj
  have := (List.pairwise_iff_getElem.1 hp) i j hi hj hij
  unfold wsStart
  rwa [List.getD_eq_getElem _ _ hi, List.getD_eq_getElem _ _ hj]

theorem wsMono_le {ws : List (Nat × Nat)} (h : WsMono ws) :
    ∀ {i j : Nat}, i ≤ j → j < ws.length → wsStart ws i ≤ wsStart ws j := by
  intro i j hij hj
  rcases Nat.eq_or_lt_of_le hij with rfl | hlt
  · exact Nat.le_refl _
  · exact Nat.le_of_lt (wsMono_lt h hlt hj)

theorem startIn_unique {ws : List (Nat × Nat)} {s i i' : Nat} (hm : WsMono ws)
    (h1 : startIn ws s i) (h2 : startIn ws s i') : i = i' := by
  rcases Nat.lt_trichotomy i i' with hlt | he | hlt
  · exfalso
    have : wsStart ws (i + 1) ≤ wsStart ws i' :=
      wsMono_le hm hlt (Nat.lt_of_succ_lt h2.1)
    have := h1.2.2
    have := h2.2.1
    omega
  · exact he
  · exfalso
    have : wsStart ws (i' + 1) ≤ wsStart ws i :=
      wsMono_le hm hlt (Nat.lt_of_succ_lt h1.1)
    have := h2.2.2
    have := h1.2.1
    omega

theorem endIn_unique {ws : List (Nat × Nat)} {e j j' : Nat} (hm : WsMono ws)
    (h1 : endIn ws e j) (h2 : endIn ws e j') : j = j' := by
  rcases Nat.lt_trichotomy j j' with hlt | he | hlt
  · exfalso
    have : wsStart ws (j + 1) ≤ wsStart ws j' :=
      wsMono_le hm hlt (Nat.lt_of_succ_lt h2.1)
    have := h1.2.2
    have := h2.2.1
    omega
  · exact he
  · exfalso
    have : wsStart ws (j' + 1) ≤ wsStart ws j :=
      wsMono_le hm hlt (Nat.lt_of_succ_lt h1.1)
    have := h2.2.2
    have := h1.2.1
    omega

theorem startIn_le_endIn {ws : List (Nat × Nat)} {s e i j : Nat} (hm : WsMono ws)
    (hse : s < e) (h1 : startIn ws s i) (h2 : endIn ws e j) : i ≤ j := by
  by_contra hgt
  push_neg at hgt
  have : wsStart ws (j + 1) ≤ wsStart ws i :=
    wsMono_le hm hgt (Nat.lt_of_succ_lt h1.1)
  have := h1.2.1
  have := h2.2.2
  omega

theorem wstartSpec_eq_of_startIn {ws : List (Nat × Nat)} {s i : Nat} (hm : WsMono ws)
    (h : startIn ws s i) : wstartSpec ws s = i := by
  unfold wstartSpec
  cases hf : (List.range ws.length).find? (fun k => decide (startIn ws s k)) with
  | none =>
    exfalso
    have := List.find?_eq_none.1 hf i
      (List.mem_range.2 (Nat.lt_of_succ_lt h.1))
    simp only [decide_eq_true_eq] at this
    exact this h
  | some k =>
    have := List.find?_some hf
    simp only [decide_eq_true_eq] at this
    exact startIn_unique hm this h

theorem wstartSpec_eq_default {ws : List (Nat × Nat)} {s : Nat}
    (h : ∀ i, ¬ startIn ws s i) : wstartSpec ws s = ws.length := by
  unfold wstartSpec
  cases hf : (List.range ws.length).find? (fun k => decide (startIn ws s k)) with
  | none => rfl
  | some k =>
    have := List.find?_some hf
    simp only [decide_eq_true_eq] at this
    exact absurd this (h k)

theorem wendSpec_eq_of_endIn {ws : List (Nat × Nat)} {e j : Nat} (hm : WsMono ws)
    (h : endIn ws e j) : wendSpec ws e = j + 1 := by
  unfold wendSpec
  cases hf : (List.range ws.length).find? (fun k => decide (endIn ws e k)) with
  | none =>
    exfalso
    have := List.find?_eq_none.1 hf j
      (List.mem_range.2 (Nat.lt_of_succ_lt h.1))
    simp only [decide_eq_true_eq] at this
    exact this h
  | some k =>
    have := List.find?_some hf
    simp only [decide_eq_true_eq] at this
    rw [endIn_unique hm this h]

theorem wendSpec_eq_default {ws : List (Nat × Nat)} {e : Nat}
    (h : ∀ j, ¬ endIn ws e j) : wendSpec ws e = 0 := by
  unfold wendSpec
  cases hf : (List.range ws.length).find? (fun k => decide (endIn ws e k)) with
  | none => rfl
  | some k =>
    have := List.find?_some hf
    simp only [decide_eq_true_eq] at this
    exact absurd this (h k)

theorem drop_cons_cons {ws : List (Nat × Nat)} {i : Nat} {x y : Nat × Nat}
    {rest : List (Nat × Nat)} (h : ws.drop i = x :: y :: rest) :
    wsStart ws i = x.1 ∧ wsStart ws (i + 1) = y.1 ∧ i + 1 < ws.length ∧
      ws.drop (i + 1) = y :: rest := by
  have hlen : ws.length - i = rest.length + 2 := by
    have := congrArg List.length h
    simpa [List.length_drop] using this
  have hi1 : i + 1 < ws.length := by omega
  have hx : ws[i]? = some x := by
    have h0 : (ws.drop i)[0]? = some x := by rw [h]; rfl
    rwa [List.getElem?_drop, Nat.add_zero] at h0
  have hy : ws[i + 1]? = some y := by
    have h1 : (ws.drop i)[1]? = some y := by rw [h]; simp
    rwa [List.getElem?_drop] at h1
  have htail : ws.drop (i + 1) = y :: rest := by
    rw [← List.tail_drop, h]
    rfl
  refine ⟨?_, ?_, hi1, htail⟩
  · unfold wsStart
    rw [List.getD_eq_getElem?_getD, hx]
    rfl
  · unfold wsStart
    rw [List.getD_eq_getElem?_getD, hy]
    rfl

theorem intervalLoop_cons (s e i : Nat) (x y : Nat × Nat) (rest : List (Nat × Nat))
    (wsr bm : Nat) :
    intervalLoop s e i (x :: y :: rest) wsr bm =
      if x.1 < e ∧ e ≤ y.1 then
        ((if x.1 ≤ s ∧ s < y.1 then i else wsr), i + 1,
          (if x.1 ≤ s ∧ s < y.1 then i else bm))
      else
        intervalLoop s e (i + 1) (y :: rest)
          (if x.1 ≤ s ∧ s < y.1 then i else wsr)
          (if x.1 ≤ s ∧ s < y.1 then i else bm) := by
  rw [intervalLoop]
  by_cases hc1 : x.1 ≤ s ∧ s < y.1
  · simp [hc1]
  · simp [hc1]

theorem intervalLoop_correct {ws : List (Nat × Nat)} (hm : WsMono ws) {s e : Nat}
    (hse : s < e) :
    ∀ (rem : List (Nat × Nat)) (i wsr bm b0 : Nat),
      rem = ws.drop i →
      (∀ k, k < i → ¬ endIn ws e k) →
      (∀ k, k < i → startIn ws s k → wsr = k ∧ bm = k) →
      ((∀ k, k < i → ¬ startIn ws s k) → wsr = ws.length ∧ bm = b0) →
      (intervalLoop s e i rem wsr bm).1 = wstartSpec ws s ∧
        (intervalLoop s e i rem wsr bm).2.1 = wendSpec ws e ∧
        (∀ k, startIn ws s k → (intervalLoop s e i rem wsr bm).2.2 = k) ∧
        ((∀ k, ¬ startIn ws s k) → (intervalLoop s e i rem wsr bm).2.2 = b0) := by
  intro rem
  induction rem with
  | nil =>
    intro i wsr bm b0 hrem H2 H3 H4
    have hlen : ws.length ≤ i := by
      have := congrArg List.length hrem
      simp [List.length_drop] at this
      omega
    have hkey : ∀ k, startIn ws s k → k < i := by
      intro k hk
      have := hk.1
      omega
    have hkeyE : ∀ k, ¬ endIn ws e k := by
      intro k hk
      exact H2 k (by have := hk.1; omega) hk
    simp only [intervalLoop]
    refine ⟨?_, ?_, ?_, ?_⟩
    · by_cases hex : ∃ k, startIn ws s k
      · obtain ⟨k, hk⟩ := hex
        rw [(H3 k (hkey k hk) hk).1, wstartSpec_eq_of_startIn hm hk]
      · push_neg at hex
        rw [(H4 (fun k _ => hex k)).1, wstartSpec_eq_default hex]
    · rw [wendSpec_eq_default hkeyE]
    · intro k hk
      exact (H3 k (hkey k hk) hk).2
    · intro h
      exact (H4 (fun k _ => h k)).2
  | cons x rem' ih =>
    cases rem' with
    | nil =>
      intro i wsr bm b0 hrem H2 H3 H4
      have hlen : ws.length = i + 1 := by
        have := congrArg List.length hrem
        simp [List.length_drop] at this
        omega
      have hkey : ∀ k, startIn ws s k → k < i := by
        intro k hk
        have := hk.1
        omega
      have hkeyE : ∀ k, ¬ endIn ws e k := by
        intro k hk
        exact H2 k (by have := hk.1; omega) hk
      simp only [intervalLoop]
      refine ⟨?_, ?_, ?_, ?_⟩
      · by_cases hex : ∃ k, startIn ws s k
        · obtain ⟨k, hk⟩ := hex
          rw [(H3 k (hkey k hk) hk).1, wstartSpec_eq_of_startIn hm hk]
        · push_neg at hex
          rw [(H4 (fun k _ => hex k)).1, wstartSpec_eq_default hex]
      · rw [wendSpec_eq_default hkeyE]
      · intro k hk
        exact (H3 k (hkey k hk) hk).2
      · intro h
        exact (H4 (fun k _ => h k)).2
    | cons y rest =>
      intro i wsr bm b0 hrem H2 H3 H4
      obtain ⟨hx, hy, hi1, hdrop'⟩ := drop_cons_cons hrem.symm
      have hsiff : startIn ws s i ↔ (x.1 ≤ s ∧ s < y.1) := by
        unfold startIn
        rw [hx, hy]
        simp [hi1]
      have heiff : endIn ws e i ↔ (x.1 < e ∧ e ≤ y.1) := by
        unfold endIn
        rw [hx, hy]
        simp [hi1]
      rw [intervalLoop_cons]
      by_cases hc2 : x.1 < e ∧ e ≤ y.1
      · have hei : endIn ws e i := heiff.2 hc2
        rw [if_pos hc2]
        by_cases hc1 : x.1 ≤ s ∧ s < y.1
        · have hsi : startIn ws s i := hsiff.2 hc1
          simp only [if_pos hc1]
          refine ⟨?_, ?_, ?_, ?_⟩
          · rw [wstartSpec_eq_of_startIn hm hsi]
          · rw [wendSpec_eq_of_endIn hm hei]
          · intro k hk
            exact startIn_unique hm hsi hk
          · intro h
            exact absurd hsi (h i)
        · have hnsi : ¬ startIn ws s i := fun h => hc1 (hsiff.1 h)
          have hkey : ∀ k, startIn ws s k → k < i := by
            intro k hk
            rcases Nat.lt_trichotomy k i with h | h | h
            · exact h
            · exact absurd (h ▸ hk) hnsi
            · exfalso
              have := startIn_le_endIn hm hse hk hei
              omega
          simp only [if_neg hc1]
          refine ⟨?_, ?_, ?_, ?_⟩
          · by_cases hex : ∃ k, startIn ws s k
            · obtain ⟨k, hk⟩ := hex
              rw [(H3 k (hkey k hk) hk).1, wstartSpec_eq_of_startIn hm hk]
            · push_neg at hex
              rw [(H4 (fun k _ => hex k)).1, wstartSpec_eq_default hex]
          · rw [wendSpec_eq_of_endIn hm hei]
          · intro k hk
            exact (H3 k (hkey k hk) hk).2
          · intro h
            exact (H4 (fun k _ => h k)).2
      · have hnei : ¬ endIn ws e i := fun h => hc2 (heiff.1 h)
        rw [if_neg hc2]
        have HA' : ∀ k, k < i + 1 → ¬ endIn ws e k := by
          intro k hk
          rcases Nat.lt_or_ge k i with h | h
          · exact H2 k h
          · have : k = i := by omega
            exact this ▸ hnei
        by_cases hc1 : x.1 ≤ s ∧ s < y.1
        · have hsi : startIn ws s i := hsiff.2 hc1
          simp only [if_pos hc1]
          refine ih (i + 1) i i b0 hdrop'.symm HA' ?_ ?_
          · intro k hk hks
            have : i = k := startIn_unique hm hsi hks
            exact ⟨this, this⟩
          · intro h
            exact absurd hsi (h i (by omega))
        · have hnsi : ¬ startIn ws s i := fun h => hc1 (hsiff.1 h)
          simp only [if_neg hc1]
          refine ih (i + 1) wsr bm b0 hdrop'.symm HA' ?_ ?_
          · intro k hk hks
            have hki : k < i := by
              rcases Nat.lt_or_ge k i with h | h
              · exact h
              · exfalso
                have : k = i := by omega
                exact hnsi (this ▸ hks)
            exact H3 k hki hks
          · intro h
            exact H4 (fun k hk => h k (by omega))

/-- Overlap detection sequence of `_event_intervals` in isolation: true iff
some event starts before the previous event's end (`le` seeds the previous
end, initially `0`). -/
def detectOverlap : Nat → List Span → Bool
  | _, [] => false
  | le, ev :: rest => if ev.1 < le then true else detectOverlap ev.2 rest

theorem eventLoop_flag {ws : List (Nat × Nat)} :
    ∀ {evs : List Span} {bm le : Nat} {ov : Bool},
      (eventLoop ws evs bm le ov).2 = (ov || detectOverlap le evs) := by
  intro evs
  induction evs with
  | nil =>
    intro bm le ov
    simp [eventLoop, detectOverlap]
  | cons ev rest ih =>
    intro bm le ov
    simp only [eventLoop, detectOverlap]
    by_cases h : ev.1 < le
    · simp only [if_pos h]
      rw [ih]
      simp
    · simp only [if_neg h]
      rw [ih]

theorem eventLoop_correct {ws : List (Nat × Nat)} (hm : WsMono ws) :
    ∀ (evs : List Span) (bm le : Nat) (ov : Bool),
      (∀ ev ∈ evs, ev.1 < ev.2) →
      List.Pairwise (fun a b => a.1 ≤ b.1) evs →
      (bm = 0 ∨ (bm < ws.length ∧ ∀ ev ∈ evs, wsStart ws bm ≤ ev.1)) →
      (eventLoop ws evs bm le ov).1 =
        evs.map (fun ev =>
          ⟨ev.1, ev.2, wstartSpec ws ev.1, wendSpec ws ev.2, none, none⟩) := by
  intro evs
  induction evs with
  | nil =>
    intro bm le ov _ _ _
    simp [eventLoop]
  | cons ev rest ih =>
    intro bm le ov hse hsort hinv
    have hse0 : ev.1 < ev.2 := hse ev (by simp)
    have hnolow : ∀ k, k < bm → ¬ startIn ws ev.1 k ∧ ¬ endIn ws ev.2 k := by
      intro k hk
      rcases hinv with rfl | ⟨hbm, hle⟩
      · omega
      · have hble : wsStart ws (k + 1) ≤ wsStart ws bm := wsMono_le hm (by omega) hbm
        have hlev : wsStart ws bm ≤ ev.1 := hle ev (by simp)
        constructor
        · intro hs
          have := hs.2.2
          omega
        · intro hs
          have := hs.2.2
          omega
    obtain ⟨hW, hE, hB1, hB2⟩ := intervalLoop_correct hm hse0
      (ws.drop bm) bm ws.length bm bm rfl
      (fun k hk => (hnolow k hk).2)
      (fun k hk hks => absurd hks (hnolow k hk).1)
      (fun _ => ⟨rfl, rfl⟩)
    have hinv' : (intervalLoop ev.1 ev.2 bm (ws.drop bm) ws.length bm).2.2 = 0 ∨
        ((intervalLoop ev.1 ev.2 bm (ws.drop bm) ws.length bm).2.2 < ws.length ∧
          ∀ ev' ∈ rest,
            wsStart ws ((intervalLoop ev.1 ev.2 bm (ws.drop bm) ws.length bm).2.2) ≤
              ev'.1) := by
      by_cases hex : ∃ k, startIn ws ev.1 k
      · obtain ⟨k, hk⟩ := hex
        right
        rw [hB1 k hk]
        refine ⟨by have := hk.1; omega, ?_⟩
        intro ev' hev'
        have h1 : wsStart ws k ≤ ev.1 := hk.2.1
        have h2 : ev.1 ≤ ev'.1 := (List.pairwise_cons.1 hsort).1 ev' hev'
        omega
      · push_neg at hex
        rw [hB2 hex]
        rcases hinv with rfl | ⟨hbm, hle⟩
        · exact Or.inl rfl
        · exact Or.inr ⟨hbm, fun ev' hev' => hle ev' (List.mem_cons_of_mem _ hev')⟩
    simp only [eventLoop, List.map_cons]
    rw [hW, hE]
    congr 1
    exact ih _ _ _ (fun e he => hse e (List.mem_cons_of_mem _ he))
      (List.pairwise_cons.1 hsort).2 hinv'

theorem compact_map_wsr : ∀ (l : List Event) (wsh csh : Int),
    (compact l wsh csh).map (fun ev => ev.wstart_raw) =
      l.map (fun ev => ev.wstart_raw) := by
  intro l
  induction l with
  | nil => intro wsh csh; rfl
  | cons ev rest ih =>
    intro wsh csh
    simp [compact, ih]

theorem compact_map_wer : ∀ (l : List Event) (wsh csh : Int),
    (compact l wsh csh).map (fun ev => ev.wend_raw) =
      l.map (fun ev => ev.wend_raw) := by
  intro l
  induction l with
  | nil => intro wsh csh; rfl
  | cons ev rest ih =>
    intro wsh csh
    simp [compact, ih]

/-- C6: for every resolved event list (sorted by start, with genuine
`start < end` spans) and every monotone word table, the offset mapper sets
each event's `wstart_raw` to the index of the word whose span contains the
event's start (`wstartSpec`, defaulting to the total word count when no
containing word exists) and `wend_raw` to one plus the index of the word
containing the last character before the event's end (`wendSpec`, left at its
initial value `0` when unresolved), while scanning from the never-rewinding
bookmark. -/
theorem claim_C6_raw_word_indices (events : List Span) (ws : List (Nat × Nat))
    (hm : WsMono ws) (hse : ∀ ev ∈ events, ev.1 < ev.2)
    (hsort : List.Pairwise (fun a b => a.1 ≤ b.1) events) :
    (event_intervals events ws).map (fun ev => ev.wstart_raw) =
        events.map (fun ev => wstartSpec ws ev.1) ∧
      (event_intervals events ws).map (fun ev => ev.wend_raw) =
        events.map (fun ev => wendSpec ws ev.2) := by
  have hraw := eventLoop_correct hm events 0 0 false hse hsort (Or.inl rfl)
  simp only [event_intervals]
  by_cases hov : (eventLoop ws events 0 0 false).2 = true
  · rw [if_pos hov, hraw]
    constructor <;> simp [List.map_map, Function.comp]
  · rw [if_neg hov, compact_map_wsr, compact_map_wer, hraw]
    constructor <;> simp [List.map_map, Function.comp]

/-- C6 witness: the raw word indices on the concrete example scenario. -/
theorem claim_C6_witness :
    (event_intervals [(4, 21), (36, 42)] sampleWordSpans).map
        (fun ev => ev.wstart_raw) =
        [(4, 21), (36, 42)].map (fun ev : Span => wstartSpec sampleWordSpans ev.1) ∧
      (event_intervals [(4, 21), (36, 42)] sampleWordSpans).map
        (fun ev => ev.wend_raw) =
        [(4, 21), (36, 42)].map (fun ev : Span => wendSpec sampleWordSpans ev.2) :=
  claim_C6_raw_word_indices [(4, 21), (36, 42)] sampleWordSpans
    (by decide) (by decide) (by decide)

/-! Lemmas for C4: the compacted coordinates exist exactly for overlap-free
batches and are monotone. -/

theorem detectOverlap_false_iff :
    ∀ (evs : List Span) (le : Nat),
      detectOverlap le evs = false ↔
        ((∀ h ∈ evs.head?, le ≤ h.1) ∧ List.Chain' (fun a b => a.2 ≤ b.1) evs) := by
  intro evs
  induction evs with
  | nil =>
    intro le
    simp [detectOverlap]
  | cons ev rest ih =>
    intro le
    rw [detectOverlap, List.chain'_cons']
    by_cases h : ev.1 < le
    · simp [h]
    · simp only [if_neg h]
      rw [ih ev.2]
      simp only [List.head?_cons, Option.mem_def, Option.some.injEq]
      constructor
      · rintro ⟨h1, h2⟩
        exact ⟨fun b hb => hb ▸ Nat.le_of_not_lt h, h1, h2⟩
      · rintro ⟨_, h1, h2⟩
        exact ⟨h1, h2⟩

theorem chain'_disjoint_head :
    ∀ {evs : List Span} (a : Span), (∀ e ∈ a :: evs, e.1 ≤ e.2) →
      List.Chain' (fun x y => x.2 ≤ y.1) (a :: evs) →
      ∀ b ∈ evs, a.2 ≤ b.1 := by
  intro evs
  induction evs with
  | nil =>
    intro a _ _ b hb
    simp at hb
  | cons c rest ih =>
    intro a hle hch b hb
    have hac : a.2 ≤ c.1 := (List.chain'_cons.1 hch).1
    rcases List.mem_cons.1 hb with rfl | hb'
    · exact hac
    · have hcb : c.2 ≤ b.1 :=
        ih c (fun e he => hle e (List.mem_cons_of_mem _ he))
          (List.chain'_cons.1 hch).2 b hb'
      have hcc : c.1 ≤ c.2 := hle c (by simp)
      omega

theorem chain'_disjoint_pairwise :
    ∀ {evs : List Span}, (∀ e ∈ evs, e.1 ≤ e.2) →
      List.Chain' (fun x y => x.2 ≤ y.1) evs →
      List.Pairwise (fun x y => x.2 ≤ y.1) evs := by
  intro evs
  induction evs with
  | nil => intro _ _; exact List.Pairwise.nil
  | cons a rest ih =>
    intro hle hch
    exact List.pairwise_cons.2
      ⟨chain'_disjoint_head a hle hch,
        ih (fun e he => hle e (List.mem_cons_of_mem _ he)) hch.tail⟩

theorem wendSpec_le_wstartSpec {ws : List (Nat × Nat)} (hm : WsMono ws)
    {e' s' : Nat} (hes : e' ≤ s') :
    wendSpec ws e' ≤ wstartSpec ws s' + 1 := by
  by_cases hex : ∃ j, endIn ws e' j
  · obtain ⟨j, hj⟩ := hex
    rw [wendSpec_eq_of_endIn hm hj]
    by_cases hex2 : ∃ i, startIn ws s' i
    · obtain ⟨i, hi⟩ := hex2
      rw [wstartSpec_eq_of_startIn hm hi]
      have hji : j < i + 1 := by
        by_contra hge
        push_neg at hge
        have : wsStart ws (i + 1) ≤ wsStart ws j :=
          wsMono_le hm hge (Nat.lt_of_succ_lt hj.1)
        have := hi.2.2
        have := hj.2.1
        omega
      omega
    · push_neg at hex2
      rw [wstartSpec_eq_default hex2]
      have := hj.1
      omega
  · push_neg at hex
    rw [wendSpec_eq_default hex]
    omega

theorem compact_cons (ev : Event) (rest : List Event) (wsh csh : Int) :
    compact (ev :: rest) wsh csh =
      { ev with wstart := some ((ev.wstart_raw : Int) - wsh),
                cstart := some ((ev.start : Int) - csh) } ::
        compact rest (wsh + ((ev.wend_raw : Int) - (ev.wstart_raw : Int) - 1))
          (csh + ((ev.stop : Int) - (ev.start : Int) - 1)) := rfl

theorem compact_mem_isSome :
    ∀ {l : List Event} {wsh csh : Int} {ev : Event}, ev ∈ compact l wsh csh →
      ev.wstart.isSome ∧ ev.cstart.isSome := by
  intro l
  induction l with
  | nil =>
    intro wsh csh ev hev
    simp [compact] at hev
  | cons a rest ih =>
    intro wsh csh ev hev
    rw [compact_cons] at hev
    rcases List.mem_cons.1 hev with rfl | hev'
    · exact ⟨rfl, rfl⟩
    · exact ih hev'

theorem compact_chain :
    ∀ {l : List Event} {wsh csh : Int},
      List.Chain' (fun a b => (a.wend_raw : Int) ≤ (b.wstart_raw : Int) + 1 ∧
        (a.stop : Int) ≤ (b.start : Int) + 1) l →
      List.Chain' (fun a b => a.wstart.getD 0 ≤ b.wstart.getD 0 ∧
        a.cstart.getD 0 ≤ b.cstart.getD 0) (compact l wsh csh) := by
  intro l
  induction l with
  | nil =>
    intro wsh csh _
    exact List.chain'_nil
  | cons a rest ih =>
    intro wsh csh hch
    rw [compact_cons]
    cases rest with
    | nil => exact List.chain'_singleton _
    | cons b rest' =>
      rw [compact_cons]
      refine List.chain'_cons.2 ⟨?_, ?_⟩
      · have hab := (List.chain'_cons.1 hch).1
        constructor
        · simp only [Option.getD_some]
          omega
        · simp only [Option.getD_some]
          omega
      · rw [← compact_cons]
        exact ih (List.chain'_cons.1 hch).2

/-- C4: for every resolved event list (sorted, with `start < end` spans) and
monotone word table: if any two events overlap in list order (the list is not
pairwise disjoint) then `wstart` and `cstart` are absent from every event of
the batch; if the batch is pairwise disjoint, `wstart` and `cstart` are
present on every event and the sequences of `wstart` values and of `cstart`
values are non-decreasing. -/
theorem claim_C4_compaction_only_when_disjoint (events : List Span)
    (ws : List (Nat × Nat)) (hm : WsMono ws)
    (hse : ∀ ev ∈ events, ev.1 < ev.2)
    (hsort : List.Pairwise (fun a b => a.1 ≤ b.1) events) :
    (¬ List.Pairwise (fun a b => a.2 ≤ b.1) events →
        ∀ ev ∈ event_intervals events ws, ev.wstart = none ∧ ev.cstart = none) ∧
      (List.Pairwise (fun a b => a.2 ≤ b.1) events →
        (∀ ev ∈ event_intervals events ws, ev.wstart.isSome ∧ ev.cstart.isSome) ∧
          List.Chain' (fun a b => a.wstart.getD 0 ≤ b.wstart.getD 0 ∧
            a.cstart.getD 0 ≤ b.cstart.getD 0) (event_intervals events ws)) := by
  have hle : ∀ e ∈ events, e.1 ≤ e.2 := fun e he => Nat.le_of_lt (hse e he)
  have hraw := eventLoop_correct hm events 0 0 false hse hsort (Or.inl rfl)
  have hflag : (eventLoop ws events 0 0 false).2 = detectOverlap 0 events := by
    rw [eventLoop_flag]
    simp
  constructor
  · intro hnpw
    have hdet : detectOverlap 0 events = true := by
      by_contra hf
      have := (detectOverlap_false_iff events 0).1 (Bool.eq_false_iff.2 hf ▸ rfl)
      exact hnpw (chain'_disjoint_pairwise hle this.2)
    intro ev hev
    simp only [event_intervals] at hev
    rw [if_pos (hflag ▸ hdet), hraw] at hev
    obtain ⟨e, _, rfl⟩ := List.mem_map.1 hev
    exact ⟨rfl, rfl⟩
  · intro hpw
    have hdet : detectOverlap 0 events = false :=
      (detectOverlap_false_iff events 0).2
        ⟨fun h _ => Nat.zero_le _, hpw.chain'⟩
    have hbranch : event_intervals events ws =
        compact (eventLoop ws events 0 0 false).1 0 0 := by
      simp only [event_intervals]
      rw [if_neg]
      rw [hflag, hdet]
      simp
    constructor
    · intro ev hev
      rw [hbranch] at hev
      exact compact_mem_isSome hev
    · rw [hbranch, hraw]
      apply compact_chain
      rw [List.chain'_map]
      have hchd : List.Chain' (fun a b => a.2 ≤ b.1) events := hpw.chain'
      refine hchd.imp ?_
      intro a b hab
      dsimp only
      refine ⟨?_, ?_⟩
      · have := wendSpec_le_wstartSpec hm hab
        omega
      · omega

/-- C4 witness: the compaction dichotomy instantiated on the concrete example
scenario events and word table. -/
theorem claim_C4_witness :
    (¬ List.Pairwise (fun a b => a.2 ≤ b.1) [((4 : Nat), (21 : Nat)), (36, 42)] →
        ∀ ev ∈ event_intervals [(4, 21), (36, 42)] sampleWordSpans,
          ev.wstart = none ∧ ev.cstart = none) ∧
      (List.Pairwise (fun a b => a.2 ≤ b.1) [((4 : Nat), (21 : Nat)), (36, 42)] →
        (∀ ev ∈ event_intervals [(4, 21), (36, 42)] sampleWordSpans,
            ev.wstart.isSome ∧ ev.cstart.isSome) ∧
          List.Chain' (fun a b => a.wstart.getD 0 ≤ b.wstart.getD 0 ∧
            a.cstart.getD 0 ≤ b.cstart.getD 0)
            (event_intervals [(4, 21), (36, 42)] sampleWordSpans)) :=
  claim_C4_compaction_only_when_disjoint [(4, 21), (36, 42)] sampleWordSpans
    (by decide) (by decide) (by decide)

/-- C5 witness: no-containment instantiated at two concrete kept spans of the
MIN output on a concrete input list. -/
theorem claim_C5_witness :
    ¬ (((2, 4) : Span).1 ≤ ((0, 3) : Span).1 ∧ ((0, 3) : Span).2 ≤ ((2, 4) : Span).2 ∧
        (((2, 4) : Span).1 < ((0, 3) : Span).1 ∨ ((0, 3) : Span).2 < ((2, 4) : Span).2)) :=
  claim_C5_min_no_containment [(0, 5), (0, 3), (2, 4)] (0, 3) (by decide) (2, 4) (by decide)

end EpisodeMiner
